import Mathlib

/-!
Verification of the `slabby` slab allocator.

The repository contains two Rust implementations of the same data
structure: `src/lib.rs` (embedded below in namespace `LibSlab`) and
`src/slab.rs` (namespace `SlabRs`).  A slab is a growable array of
slots; each slot is a union holding either a user value, the index of
the next free slot (an intrusive free list), or uninitialized memory.
Keys are the generic `K : Key` type of `src/key.rs`; we embed them as
`Nat` (the no-overflow case, which is the caller-enforced precondition
stated in the source's safety comments).

UB totalization choices, each marked at its definition:
 - reading the `next` union field of a slot that does not currently
   hold a free-list pointer is UB in the source; `readNextField`
   totalizes it to `0`;
 - `remove` on a slot not holding a value is UB in the source; the
   embedding returns `none` for the extracted value;
 - `K::dec` below zero is underflow in the source; `Nat` subtraction
   truncates.  The trace-validity predicate used by the theorems rules
   all of these out where a claim depends on them.
-/

namespace LibSlab

/-- Embedding of `union Slot<T, K>` from `src/lib.rs`: a slot holds a value, a free-list
pointer (`next`), or is uninitialized; which field is live is tracked
externally by the container, not by the slot. -/
inductive Slot (T : Type) where
  | val (v : T)
  | next (k : Nat)
  | uninit
deriving DecidableEq

/-- Embedding of `struct Slab<T, K>` from `src/lib.rs`: boxed slice of slots, free-list
head / high-water cursor `next`, and occupied count `len`. -/
structure Slab (T : Type) where
  slots : List (Slot T)
  next : Nat
  len : Nat
deriving DecidableEq

variable {T : Type}

/-- Model of `Slab::new` from `src/lib.rs`: empty storage, `next = len = ZERO`. -/
def Slab.new : Slab T :=
  { slots := [], next := 0, len := 0 }

/-- Model of `Slab::extend` from `src/lib.rs`: grow the boxed slice by
`INITIAL_SIZE = 4` when empty, else by its current length (doubling);
the appended slots are uninitialized. -/
def Slab.extend (s : Slab T) : Slab T :=
  let extendBy := if s.slots.length = 0 then 4 else s.slots.length
  { s with slots := s.slots ++ List.replicate extendBy Slot.uninit }

/-- Reading the `next` union field of a slot (`unsafe { slot.next }` in
`src/lib.rs`).  In the source this is UB unless the slot currently holds
a free-list pointer; the embedding totalizes the UB case to `0`. -/
def readNextField (sl : Slot T) : Nat :=
  match sl with
  | Slot.next k => k
  | _ => 0

/-- The boundary check at the top of `Slab::insert` in `src/lib.rs`:
`if next.as_usize() == self.slots.len() { self.extend(); }`. -/
def Slab.grow (s : Slab T) : Slab T :=
  if s.next = s.slots.length then s.extend else s

/-- Model of `Slab::insert` from `src/lib.rs`: take `next` as the key, grow if the
cursor sits at the capacity boundary, advance `next` (high-water
increment when `next == len`, else follow the free-list pointer stored
in the slot), bump `len`, and write the value into the slot. -/
def Slab.insert (s : Slab T) (v : T) : Nat × Slab T :=
  let next := s.next
  let s1 := s.grow
  let newNext := if s1.next = s1.len then s1.next + 1
    else readNextField (s1.slots.getD next Slot.uninit)
  (next, { slots := s1.slots.set next (Slot.val v), next := newNext, len := s1.len + 1 })

/-- Model of `Slab::remove` from `src/lib.rs`: replace the slot with a free-list
link to the current `next`, point `next` at the freed key, decrement
`len`, and return the extracted value.  Reading the value of a slot that
holds no value is UB in the source; the embedding returns `none`. -/
def Slab.remove (s : Slab T) (key : Nat) : Option T × Slab T :=
  let old := s.slots.getD key Slot.uninit
  (match old with
    | Slot.val v => some v
    | _ => none,
   { slots := s.slots.set key (Slot.next s.next), next := key, len := s.len - 1 })

/-- Model of `Slab::get` from `src/lib.rs` (also the read side of `get_mut`):
return the value stored at `key`.  Reading a slot that holds no value is
UB in the source; the embedding returns `none`. -/
def Slab.get (s : Slab T) (key : Nat) : Option T :=
  match s.slots.getD key Slot.uninit with
  | Slot.val v => some v
  | _ => none

/-- Writing through `Slab::get_mut` from `src/lib.rs`
(`*slab.get_mut(key) = v`): overwrite the slot's value in place. -/
def Slab.setVal (s : Slab T) (key : Nat) (v : T) : Slab T :=
  { s with slots := s.slots.set key (Slot.val v) }

/-- One mutating operation of the public API: `insert`, `remove`, or a
write through `get_mut` (reads are pure and need no trace step). -/
inductive Op (T : Type) where
  | insert (v : T)
  | remove (k : Nat)
  | set (k : Nat) (v : T)
deriving DecidableEq

/-- A slab together with specification-level ghost state: `live` is the
set of keys issued and not removed since (the spec's "occupied" keys),
`written` maps each key to the last value written to it (by the insert
that returned it or through `get_mut`), and `keys` records the keys
returned by the inserts in order. -/
structure RunState (T : Type) where
  slab : Slab T
  live : List Nat
  written : Nat → Option T
  keys : List Nat

/-- Run one operation, updating the slab per the source code and the
ghost state per the spec's reading of the operation. -/
def stepRun (st : RunState T) : Op T → RunState T
  | Op.insert v =>
    let p := st.slab.insert v
    { slab := p.2
      live := if p.1 ∈ st.live then st.live else p.1 :: st.live
      written := fun j => if j = p.1 then some v else st.written j
      keys := st.keys ++ [p.1] }
  | Op.remove k =>
    { slab := (st.slab.remove k).2
      live := st.live.erase k
      written := fun j => if j = k then none else st.written j
      keys := st.keys }
  | Op.set k v =>
    { slab := st.slab.setVal k v
      live := st.live
      written := fun j => if j = k then some v else st.written j
      keys := st.keys }

/-- Run a list of operations from a given state. -/
def steps (st : RunState T) : List (Op T) → RunState T
  | [] => st
  | op :: rest => steps (stepRun st op) rest

/-- The initial run state: a fresh slab, no live keys, nothing written. -/
def initState : RunState T :=
  { slab := Slab.new, live := [], written := fun _ => none, keys := [] }

/-- Run a list of operations from a freshly constructed slab. -/
def runOps (ops : List (Op T)) : RunState T :=
  steps initState ops

/-- The stated precondition of one operation: `remove` and `get_mut`
writes may only target a key that was obtained from this slab and not
removed since (`insert`'s own precondition — no key-type overflow — is
the `Nat` embedding). -/
def okOp (st : RunState T) : Op T → Bool
  | Op.insert _ => true
  | Op.remove k => decide (k ∈ st.live)
  | Op.set k _ => decide (k ∈ st.live)

/-- A list of operations respects the stated preconditions from `st`. -/
def validFrom (st : RunState T) : List (Op T) → Bool
  | [] => true
  | op :: rest => okOp st op && validFrom (stepRun st op) rest

/-- A list of operations respects the stated preconditions from `new()`. -/
def Valid (ops : List (Op T)) : Bool :=
  validFrom initState ops

/-- Number of inserts in a list of operations. -/
def countIns (ops : List (Op T)) : Nat :=
  (ops.filter fun op => match op with | Op.insert _ => true | _ => false).length

/-- Number of removes in a list of operations. -/
def countRem (ops : List (Op T)) : Nat :=
  (ops.filter fun op => match op with | Op.remove _ => true | _ => false).length

/-- The inductive invariant of run states reachable under the stated
preconditions: the cursor and every stored free-list pointer stay within
the capacity, every live key indexes into storage and its slot holds
exactly the last value written to it, the live keys are distinct, and
there are at most `len` of them. -/
def GoodRun (st : RunState T) : Prop :=
  st.slab.next ≤ st.slab.slots.length ∧
  (∀ sl ∈ st.slab.slots, ∀ p, sl = Slot.next p → p ≤ st.slab.slots.length) ∧
  (∀ k ∈ st.live, k < st.slab.slots.length) ∧
  (∀ k ∈ st.live, ∃ v, st.written k = some v ∧ st.slab.get k = some v) ∧
  st.live.Nodup ∧
  st.live.length ≤ st.slab.len

end LibSlab

namespace SlabRs

/-- Embedding of `union Slot<T, K>` from `src/slab.rs` (identical to the one in
`src/lib.rs` up to the name of the uninitialized field). -/
inductive Slot (T : Type) where
  | val (v : T)
  | next (k : Nat)
  | uninit
deriving DecidableEq

/-- Embedding of `struct Slab<T, K>` from `src/slab.rs`: boxed slice of slots, free-list
head / high-water cursor `next`, and occupied count `len`.  The source's
`next()` accessor is the projection to the `next` field. -/
structure Slab (T : Type) where
  slots : List (Slot T)
  next : Nat
  len : Nat
deriving DecidableEq

variable {T : Type}

/-- Model of `Slab::new` from `src/slab.rs`. -/
def Slab.new : Slab T :=
  { slots := [], next := 0, len := 0 }

/-- Model of `Slab::extend` from `src/slab.rs`: `reserve_exact(extend_by)` then
`set_len(capacity)`.  `reserve_exact` requests exactly `extend_by` more
slots (the allocator may hand back more; the embedding models the exact,
guaranteed-minimum capacity, and the observable behavior proved below does
not depend on any extra padding); the newly exposed slots are
uninitialized. -/
def Slab.extend (s : Slab T) : Slab T :=
  let extendBy := if s.slots.length = 0 then 4 else s.slots.length
  { s with slots := s.slots ++ List.replicate extendBy Slot.uninit }

/-- The boundary check at the top of `Slab::insert` in `src/slab.rs`. -/
def Slab.grow (s : Slab T) : Slab T :=
  if s.next = s.slots.length then s.extend else s

/-- Reading the `next` union field of a slot (`unsafe { slot.next }` in
`src/slab.rs`); UB on a non-pointer slot, totalized to `0` exactly as in
the `LibSlab` embedding. -/
def readNextField (sl : Slot T) : Nat :=
  match sl with
  | Slot.next k => k
  | _ => 0

/-- Model of `Slab::insert` from `src/slab.rs` (same algorithm as in `src/lib.rs`). -/
def Slab.insert (s : Slab T) (v : T) : Nat × Slab T :=
  let next := s.next
  let s1 := s.grow
  let newNext := if s1.next = s1.len then s1.next + 1
    else readNextField (s1.slots.getD next Slot.uninit)
  (next, { slots := s1.slots.set next (Slot.val v), next := newNext, len := s1.len + 1 })

/-- Model of `Slab::remove` from `src/slab.rs` (same algorithm as in `src/lib.rs`). -/
def Slab.remove (s : Slab T) (key : Nat) : Option T × Slab T :=
  let old := s.slots.getD key Slot.uninit
  (match old with
    | Slot.val v => some v
    | _ => none,
   { slots := s.slots.set key (Slot.next s.next), next := key, len := s.len - 1 })

/-- Model of `Slab::get` from `src/slab.rs` (also the read side of `get_mut`). -/
def Slab.get (s : Slab T) (key : Nat) : Option T :=
  match s.slots.getD key Slot.uninit with
  | Slot.val v => some v
  | _ => none

/-- Writing through `Slab::get_mut` from `src/slab.rs`. -/
def Slab.setVal (s : Slab T) (key : Nat) (v : T) : Slab T :=
  { s with slots := s.slots.set key (Slot.val v) }

end SlabRs

/-- One call of the observable API surface shared by the two `Slab`
implementations: `insert`, `remove`, a `get` read, a `get_mut` write, or
`len`. -/
inductive OpQ (T : Type) where
  | insert (v : T)
  | remove (k : Nat)
  | get (k : Nat)
  | set (k : Nat) (v : T)
  | len
deriving DecidableEq

/-- The value observed from one API call: the key returned by `insert`, the
value extracted by `remove` or observed by `get`, or the count returned by
`len` (`get_mut` writes return nothing). -/
inductive Out (T : Type) where
  | key (k : Nat)
  | extracted (v : Option T)
  | count (n : Nat)
  | done
deriving DecidableEq

/-- Run a call sequence against the `src/lib.rs` implementation, collecting
every observed result. -/
def LibSlab.runQ {T : Type} : LibSlab.Slab T → List (OpQ T) → List (Out T)
  | _, [] => []
  | s, OpQ.insert v :: rest =>
    Out.key (s.insert v).1 :: LibSlab.runQ (s.insert v).2 rest
  | s, OpQ.remove k :: rest =>
    Out.extracted (s.remove k).1 :: LibSlab.runQ (s.remove k).2 rest
  | s, OpQ.get k :: rest => Out.extracted (s.get k) :: LibSlab.runQ s rest
  | s, OpQ.set k v :: rest => Out.done :: LibSlab.runQ (s.setVal k v) rest
  | s, OpQ.len :: rest => Out.count s.len :: LibSlab.runQ s rest

/-- Run a call sequence against the `src/slab.rs` implementation, collecting
every observed result. -/
def SlabRs.runQ {T : Type} : SlabRs.Slab T → List (OpQ T) → List (Out T)
  | _, [] => []
  | s, OpQ.insert v :: rest =>
    Out.key (s.insert v).1 :: SlabRs.runQ (s.insert v).2 rest
  | s, OpQ.remove k :: rest =>
    Out.extracted (s.remove k).1 :: SlabRs.runQ (s.remove k).2 rest
  | s, OpQ.get k :: rest => Out.extracted (s.get k) :: SlabRs.runQ s rest
  | s, OpQ.set k v :: rest => Out.done :: SlabRs.runQ (s.setVal k v) rest
  | s, OpQ.len :: rest => Out.count s.len :: SlabRs.runQ s rest

/-- Slot correspondence between the two implementations. -/
def slotToRs {T : Type} : LibSlab.Slot T → SlabRs.Slot T
  | LibSlab.Slot.val v => SlabRs.Slot.val v
  | LibSlab.Slot.next k => SlabRs.Slot.next k
  | LibSlab.Slot.uninit => SlabRs.Slot.uninit

/-- State correspondence between the two implementations. -/
def slabToRs {T : Type} (s : LibSlab.Slab T) : SlabRs.Slab T :=
  { slots := s.slots.map slotToRs, next := s.next, len := s.len }

/-- List helper: `getD` of a `set` at a different index is unchanged. -/
theorem getD_set_ne {α : Type} (l : List α) (k j : Nat) (x d : α) (h : j ≠ k) :
    (l.set k x).getD j d = l.getD j d := by
  induction l generalizing k j with
  | nil => simp
  | cons a t ih =>
    cases k with
    | zero =>
      cases j with
      | zero => exact absurd rfl h
      | succ j => simp [List.getD_cons_succ]
    | succ k =>
      cases j with
      | zero => simp
      | succ j =>
        simp only [List.set_cons_succ, List.getD_cons_succ]
        exact ih k j (fun e => h (by rw [e]))

/-- List helper: `getD` of a `set` at the written index returns the new value. -/
theorem getD_set_self {α : Type} (l : List α) (k : Nat) (x d : α) (h : k < l.length) :
    (l.set k x).getD k d = x := by
  induction l generalizing k with
  | nil => simp at h
  | cons a t ih =>
    cases k with
    | zero => simp
    | succ k =>
      simp only [List.set_cons_succ, List.getD_cons_succ]
      exact ih k (Nat.lt_of_succ_lt_succ h)

/-- List helper: `getD` below the length of the left part of an append. -/
theorem getD_append_left {α : Type} (l m : List α) (j : Nat) (d : α) (h : j < l.length) :
    (l ++ m).getD j d = l.getD j d := by
  induction l generalizing j with
  | nil => simp at h
  | cons a t ih =>
    cases j with
    | zero => simp
    | succ j =>
      simp only [List.cons_append, List.getD_cons_succ]
      exact ih j (Nat.lt_of_succ_lt_succ h)

/-- List helper: `getD` past the end of the list gives the default. -/
theorem getD_of_length_le {α : Type} (l : List α) (j : Nat) (d : α) (h : l.length ≤ j) :
    l.getD j d = d := by
  induction l generalizing j with
  | nil => simp
  | cons a t ih =>
    cases j with
    | zero => simp at h
    | succ j =>
      simp only [List.getD_cons_succ]
      exact ih j (Nat.le_of_succ_le_succ h)

/-- List helper: `getD` returns a member of the list or the default. -/
theorem getD_mem_or_default {α : Type} (l : List α) (j : Nat) (d : α) :
    l.getD j d ∈ l ∨ l.getD j d = d := by
  induction l generalizing j with
  | nil => simp
  | cons a t ih =>
    cases j with
    | zero => simp
    | succ j =>
      simp only [List.getD_cons_succ]
      rcases ih j with h | h
      · exact Or.inl (List.mem_cons_of_mem a h)
      · exact Or.inr h

/-- List helper: `getD` commutes with `map` when the default is the image of the default. -/
theorem getD_map {α β : Type} (f : α → β) (l : List α) (j : Nat) (d : α) :
    (l.map f).getD j (f d) = f (l.getD j d) := by
  induction l generalizing j with
  | nil => simp
  | cons a t ih =>
    cases j with
    | zero => simp
    | succ j => simp only [List.map_cons, List.getD_cons_succ]; exact ih j

theorem getD_map_slot {T : Type} (l : List (LibSlab.Slot T)) (j : Nat) :
    (l.map slotToRs).getD j SlabRs.Slot.uninit
      = slotToRs (l.getD j LibSlab.Slot.uninit) :=
  getD_map slotToRs l j LibSlab.Slot.uninit

namespace LibSlab

theorem grow_next (s : Slab T) : s.grow.next = s.next := by
  unfold Slab.grow; split <;> rfl

theorem grow_len (s : Slab T) : s.grow.len = s.len := by
  unfold Slab.grow; split <;> rfl

theorem grow_length_ge (s : Slab T) : s.slots.length ≤ s.grow.slots.length := by
  unfold Slab.grow
  split
  · simp [Slab.extend]
  · exact Nat.le_refl _

theorem grow_length_lt (s : Slab T) (h : s.next ≤ s.slots.length) :
    s.next < s.grow.slots.length := by
  unfold Slab.grow
  split
  · rename_i he
    simp only [Slab.extend, List.length_append, List.length_replicate]
    rcases Nat.eq_zero_or_pos s.slots.length with h0 | h0
    · simp [h0] at he ⊢; omega
    · rw [if_neg (Nat.pos_iff_ne_zero.mp h0)]; omega
  · rename_i he
    exact Nat.lt_of_le_of_ne h he

theorem grow_getD (s : Slab T) (j : Nat) (d : Slot T) (h : j < s.slots.length) :
    s.grow.slots.getD j d = s.slots.getD j d := by
  unfold Slab.grow
  split
  · simp only [Slab.extend]
    exact getD_append_left _ _ j d h
  · rfl

theorem grow_mem (s : Slab T) (sl : Slot T) (h : sl ∈ s.grow.slots) :
    sl ∈ s.slots ∨ sl = Slot.uninit := by
  unfold Slab.grow at h
  split at h
  · simp only [Slab.extend, List.mem_append] at h
    rcases h with h | h
    · exact Or.inl h
    · exact Or.inr (List.eq_of_mem_replicate h)
  · exact Or.inl h

theorem insert_key (s : Slab T) (v : T) : (s.insert v).1 = s.next := rfl

theorem insert_len (s : Slab T) (v : T) : (s.insert v).2.len = s.len + 1 := by
  show s.grow.len + 1 = s.len + 1
  rw [grow_len]

theorem insert_length (s : Slab T) (v : T) :
    (s.insert v).2.slots.length = s.grow.slots.length := by
  show (s.grow.slots.set s.next (Slot.val v)).length = _
  exact List.length_set _ _ _

theorem insert_length_ge (s : Slab T) (v : T) :
    s.slots.length ≤ (s.insert v).2.slots.length := by
  rw [insert_length]; exact grow_length_ge s

theorem insert_key_lt (s : Slab T) (v : T) (h : s.next ≤ s.slots.length) :
    s.next < (s.insert v).2.slots.length := by
  rw [insert_length]; exact grow_length_lt s h

theorem insert_getD_key (s : Slab T) (v : T) (d : Slot T) (h : s.next ≤ s.slots.length) :
    (s.insert v).2.slots.getD s.next d = Slot.val v := by
  show (s.grow.slots.set s.next (Slot.val v)).getD s.next d = Slot.val v
  exact getD_set_self _ _ _ _ (grow_length_lt s h)

theorem insert_getD_ne (s : Slab T) (v : T) (j : Nat) (d : Slot T)
    (hj : j ≠ s.next) (hlt : j < s.slots.length) :
    (s.insert v).2.slots.getD j d = s.slots.getD j d := by
  show (s.grow.slots.set s.next (Slot.val v)).getD j d = _
  rw [getD_set_ne _ _ _ _ _ hj]
  exact grow_getD s j d hlt

theorem insert_next_le (s : Slab T) (v : T) (h1 : s.next ≤ s.slots.length)
    (h2 : ∀ sl ∈ s.slots, ∀ p, sl = Slot.next p → p ≤ s.slots.length) :
    (s.insert v).2.next ≤ (s.insert v).2.slots.length := by
  rw [insert_length]
  show (if s.grow.next = s.grow.len then s.grow.next + 1
    else readNextField (s.grow.slots.getD s.next Slot.uninit)) ≤ s.grow.slots.length
  split
  · rw [grow_next]
    exact grow_length_lt s h1
  · rcases getD_mem_or_default s.grow.slots s.next Slot.uninit with hm | hd
    · rcases grow_mem s _ hm with hm' | hu
      · cases hx : s.grow.slots.getD s.next Slot.uninit with
        | val w => simp [readNextField]
        | next p =>
          rw [hx] at hm'
          have := h2 _ hm' p rfl
          simp only [readNextField]
          exact Nat.le_trans this (grow_length_ge s)
        | uninit => simp [readNextField]
      · rw [hu]; simp [readNextField]
    · rw [hd]; simp [readNextField]

theorem insert_ptr_bound (s : Slab T) (v : T)
    (h2 : ∀ sl ∈ s.slots, ∀ p, sl = Slot.next p → p ≤ s.slots.length) :
    ∀ sl ∈ (s.insert v).2.slots, ∀ p, sl = Slot.next p →
      p ≤ (s.insert v).2.slots.length := by
  intro sl hsl p hp
  have hmem : sl ∈ s.grow.slots.set s.next (Slot.val v) := hsl
  rcases List.mem_or_eq_of_mem_set hmem with hm | he
  · rcases grow_mem s _ hm with hm' | hu
    · exact Nat.le_trans (h2 _ hm' p hp) (insert_length_ge s v)
    · rw [hu] at hp; cases hp
  · rw [he] at hp; cases hp

theorem insert_get_ne (s : Slab T) (v : T) (j : Nat)
    (hj : j ≠ s.next) (hlt : j < s.slots.length) :
    (s.insert v).2.get j = s.get j := by
  unfold Slab.get
  rw [insert_getD_ne s v j Slot.uninit hj hlt]

theorem insert_get_key (s : Slab T) (v : T) (h : s.next ≤ s.slots.length) :
    (s.insert v).2.get s.next = some v := by
  unfold Slab.get
  rw [insert_getD_key s v Slot.uninit h]

theorem insert_next_virgin (s : Slab T) (v : T) (h : s.next = s.len) :
    (s.insert v).2.next = s.next + 1 := by
  show (if s.grow.next = s.grow.len then s.grow.next + 1
    else readNextField (s.grow.slots.getD s.next Slot.uninit)) = s.next + 1
  rw [grow_next, grow_len, if_pos h]

theorem remove_len (s : Slab T) (k : Nat) : (s.remove k).2.len = s.len - 1 := rfl

theorem remove_next (s : Slab T) (k : Nat) : (s.remove k).2.next = k := rfl

theorem remove_length (s : Slab T) (k : Nat) :
    (s.remove k).2.slots.length = s.slots.length := List.length_set _ _ _

theorem remove_get_ne (s : Slab T) (k j : Nat) (hj : j ≠ k) :
    (s.remove k).2.get j = s.get j := by
  unfold Slab.get
  have hs : (s.remove k).2.slots = s.slots.set k (Slot.next s.next) := rfl
  rw [hs, getD_set_ne _ _ _ _ _ hj]

theorem remove_ptr_bound (s : Slab T) (k : Nat) (h1 : s.next ≤ s.slots.length)
    (h2 : ∀ sl ∈ s.slots, ∀ p, sl = Slot.next p → p ≤ s.slots.length) :
    ∀ sl ∈ (s.remove k).2.slots, ∀ p, sl = Slot.next p →
      p ≤ (s.remove k).2.slots.length := by
  intro sl hsl p hp
  rw [remove_length]
  have hmem : sl ∈ s.slots.set k (Slot.next s.next) := hsl
  rcases List.mem_or_eq_of_mem_set hmem with hm | he
  · exact h2 _ hm p hp
  · rw [he] at hp
    cases hp
    exact h1

theorem setVal_len (s : Slab T) (k : Nat) (v : T) : (s.setVal k v).len = s.len := rfl

theorem setVal_next (s : Slab T) (k : Nat) (v : T) : (s.setVal k v).next = s.next := rfl

theorem setVal_length (s : Slab T) (k : Nat) (v : T) :
    (s.setVal k v).slots.length = s.slots.length := List.length_set _ _ _

theorem setVal_get_ne (s : Slab T) (k j : Nat) (v : T) (hj : j ≠ k) :
    (s.setVal k v).get j = s.get j := by
  unfold Slab.get Slab.setVal
  rw [getD_set_ne _ _ _ _ _ hj]

theorem setVal_get_key (s : Slab T) (k : Nat) (v : T) (h : k < s.slots.length) :
    (s.setVal k v).get k = some v := by
  unfold Slab.get Slab.setVal
  rw [getD_set_self _ _ _ _ h]

theorem setVal_ptr_bound (s : Slab T) (k : Nat) (v : T)
    (h2 : ∀ sl ∈ s.slots, ∀ p, sl = Slot.next p → p ≤ s.slots.length) :
    ∀ sl ∈ (s.setVal k v).slots, ∀ p, sl = Slot.next p →
      p ≤ (s.setVal k v).slots.length := by
  intro sl hsl p hp
  rw [setVal_length]
  have hmem : sl ∈ s.slots.set k (Slot.val v) := hsl
  rcases List.mem_or_eq_of_mem_set hmem with hm | he
  · exact h2 _ hm p hp
  · rw [he] at hp; cases hp

theorem goodRun_initState : GoodRun (initState (T := T)) := by
  refine ⟨Nat.le_refl _, ?_, ?_, ?_, List.nodup_nil, Nat.le_refl _⟩ <;> intro k hk <;>
    simp [initState, Slab.new] at hk

theorem goodStep {st : RunState T} {op : Op T}
    (hg : GoodRun st) (hok : okOp st op = true) : GoodRun (stepRun st op) := by
  obtain ⟨h1, h2, h3, h4, h5, h6⟩ := hg
  cases op with
  | insert v =>
    have hkey : (st.slab.insert v).1 = st.slab.next := insert_key _ _
    refine ⟨insert_next_le _ _ h1 h2, insert_ptr_bound _ _ h2, ?_, ?_, ?_, ?_⟩
    · intro k hk
      simp only [stepRun] at hk ⊢
      split at hk
      · exact Nat.lt_of_lt_of_le (h3 k hk) (insert_length_ge _ _)
      · rcases List.mem_cons.mp hk with he | hm
        · rw [he, hkey]; exact insert_key_lt _ _ h1
        · exact Nat.lt_of_lt_of_le (h3 k hm) (insert_length_ge _ _)
    · intro k hk
      simp only [stepRun] at hk ⊢
      by_cases he : k = (st.slab.insert v).1
      · refine ⟨v, by rw [if_pos he], ?_⟩
        rw [he, hkey]
        exact insert_get_key _ _ h1
      · rw [if_neg he]
        have hm : k ∈ st.live := by
          split at hk
          · exact hk
          · rcases List.mem_cons.mp hk with h | h
            · exact absurd h he
            · exact h
        obtain ⟨w, hw, hgw⟩ := h4 k hm
        refine ⟨w, hw, ?_⟩
        rw [← hgw]
        exact insert_get_ne _ _ _ (fun hc => he (by rw [hkey, ← hc])) (h3 k hm)
    · simp only [stepRun]
      split
      · exact h5
      · exact List.Nodup.cons (by assumption) h5
    · simp only [stepRun, insert_len]
      split
      · exact Nat.le_succ_of_le h6
      · exact Nat.succ_le_succ h6
  | remove k =>
    have hkl : k ∈ st.live := by
      simpa [okOp] using hok
    refine ⟨?_, remove_ptr_bound _ _ h1 h2, ?_, ?_, ?_, ?_⟩
    · show k ≤ (st.slab.remove k).2.slots.length
      rw [remove_length]
      exact Nat.le_of_lt (h3 k hkl)
    · intro j hj
      simp only [stepRun] at hj ⊢
      rw [remove_length]
      exact h3 j (List.mem_of_mem_erase hj)
    · intro j hj
      simp only [stepRun] at hj ⊢
      obtain ⟨hne, hm⟩ := (List.Nodup.mem_erase_iff h5).mp hj
      obtain ⟨w, hw, hgw⟩ := h4 j hm
      refine ⟨w, by rw [if_neg hne]; exact hw, ?_⟩
      rw [← hgw]
      exact remove_get_ne _ _ _ hne
    · exact List.Nodup.erase k h5
    · simp only [stepRun, remove_len]
      rw [List.length_erase_of_mem hkl]
      exact Nat.sub_le_sub_right h6 1
  | set k v =>
    have hkl : k ∈ st.live := by
      simpa [okOp] using hok
    refine ⟨?_, setVal_ptr_bound _ _ _ h2, ?_, ?_, h5, ?_⟩
    · show st.slab.next ≤ (st.slab.setVal k v).slots.length
      rw [setVal_length]; exact h1
    · intro j hj
      simp only [stepRun] at hj ⊢
      rw [setVal_length]
      exact h3 j hj
    · intro j hj
      simp only [stepRun] at hj ⊢
      by_cases he : j = k
      · refine ⟨v, by rw [if_pos he], ?_⟩
        rw [he]
        exact setVal_get_key _ _ _ (h3 k hkl)
      · obtain ⟨w, hw, hgw⟩ := h4 j hj
        refine ⟨w, by rw [if_neg he]; exact hw, ?_⟩
        rw [← hgw]
        exact setVal_get_ne _ _ _ _ he
    · simp only [stepRun, setVal_len]
      exact h6

theorem goodRun_steps {st : RunState T} {ops : List (Op T)}
    (hg : GoodRun st) (hv : validFrom st ops = true) : GoodRun (steps st ops) := by
  induction ops generalizing st with
  | nil => exact hg
  | cons op rest ih =>
    simp only [validFrom, Bool.and_eq_true] at hv
    exact ih (goodStep hg hv.1) hv.2

theorem len_steps {st : RunState T} {ops : List (Op T)}
    (hg : GoodRun st) (hv : validFrom st ops = true) :
    (steps st ops).slab.len + countRem ops = st.slab.len + countIns ops := by
  induction ops generalizing st with
  | nil => simp [steps, countIns, countRem]
  | cons op rest ih =>
    simp only [validFrom, Bool.and_eq_true] at hv
    have hstep := ih (goodStep hg hv.1) hv.2
    cases op with
    | insert v =>
      have hlen : (stepRun st (Op.insert v)).slab.len = st.slab.len + 1 := insert_len _ _
      simp only [steps, countIns, countRem, List.filter] at hstep ⊢
      simp only [List.length_cons]
      omega
    | remove k =>
      have hkl : k ∈ st.live := by simpa [okOp] using hv.1
      have hpos : 1 ≤ st.slab.len := by
        obtain ⟨hc, -, -, -, -, h6⟩ := hg
        have : 0 < st.live.length := List.length_pos.mpr (List.ne_nil_of_mem hkl)
        omega
      have hlen : (stepRun st (Op.remove k)).slab.len = st.slab.len - 1 := remove_len _ _
      simp only [steps, countIns, countRem, List.filter] at hstep ⊢
      simp only [List.length_cons]
      omega
    | set k v =>
      have hlen : (stepRun st (Op.set k v)).slab.len = st.slab.len := setVal_len _ _ _
      simp only [steps, countIns, countRem, List.filter] at hstep ⊢
      omega

/-- While no slot has ever been freed (`next = len`), every insert takes the
virgin-slot path, so a run of inserts issues the consecutive keys
`next, next + 1, ...`. -/
theorem steps_inserts_keys (vals : List T) (st : RunState T)
    (h : st.slab.next = st.slab.len) :
    (steps st (vals.map Op.insert)).keys
      = st.keys ++ List.range' st.slab.next vals.length := by
  induction vals generalizing st with
  | nil => simp [steps]
  | cons v vals ih =>
    have hnext : (stepRun st (Op.insert v)).slab.next = st.slab.next + 1 :=
      insert_next_virgin _ _ h
    have hlen : (stepRun st (Op.insert v)).slab.len = st.slab.len + 1 :=
      insert_len _ _
    have hkeys : (stepRun st (Op.insert v)).keys = st.keys ++ [st.slab.next] := by
      simp [stepRun, insert_key]
    have := ih (stepRun st (Op.insert v)) (by rw [hnext, hlen, h])
    rw [List.map_cons]
    show (steps (stepRun st (Op.insert v)) (vals.map Op.insert)).keys = _
    rw [this, hkeys, hnext, List.append_assoc, List.singleton_append, List.length_cons]
    rfl

/-- The `basic_ops` test of `src/lib.rs`, evaluated in the embedding: the
six inserts return the keys the test observes. -/
theorem basic_ops_scenario_keys :
    (runOps [Op.insert 1, Op.insert 2, Op.insert 3, Op.remove 1, Op.remove 0,
      Op.insert 4, Op.insert 5, Op.insert 6]).keys = [0, 1, 2, 0, 1, 3] := by decide

/-- The `basic_ops` test of `src/lib.rs`: `len()` is `4` after the sixth
insert, as the test asserts. -/
theorem basic_ops_scenario_len :
    (runOps [Op.insert 1, Op.insert 2, Op.insert 3, Op.remove 1, Op.remove 0,
      Op.insert 4, Op.insert 5, Op.insert 6]).slab.len = 4 := by decide

/-- Claim C1: after any sequence of inserts, removes, and `get_mut` writes
that respects the stated preconditions, `get`/`get_mut` on a still-occupied
key observes exactly the last value written to that key (by the insert that
issued it or by a later `get_mut` write), recorded in the ghost map
`written`. -/
theorem claim_C1_roundtrip (ops : List (Op T)) (h : Valid ops = true) (k : Nat)
    (hk : k ∈ (runOps ops).live) :
    (runOps ops).slab.get k = (runOps ops).written k := by
  have h' : validFrom (initState (T := T)) ops = true := h
  have hg := goodRun_steps goodRun_initState h'
  obtain ⟨-, -, -, h4, -, -⟩ := hg
  obtain ⟨v, hw, hgv⟩ := h4 k hk
  exact hgv.trans hw.symm

theorem claim_C1_roundtrip_witness :
    Valid [Op.insert 10, Op.insert 20, Op.set 0 30, Op.remove 1] = true ∧
    0 ∈ (runOps [Op.insert 10, Op.insert 20, Op.set 0 30, Op.remove 1]).live ∧
    (runOps [Op.insert 10, Op.insert 20, Op.set 0 30, Op.remove 1]).slab.get 0
      = (runOps [Op.insert 10, Op.insert 20, Op.set 0 30, Op.remove 1]).written 0 :=
  ⟨by decide, by decide,
    claim_C1_roundtrip [Op.insert 10, Op.insert 20, Op.set 0 30, Op.remove 1]
      (by decide) 0 (by decide)⟩

/-- Claim C2 (code bug): the free list is supposed to be reused in LIFO
order, but after `insert 10, 11, 12, 13; remove 0; remove 2` the state has
`next = len = 2`, so the next insert takes the virgin-slot branch and
forgets the free list: the run returns the keys `[0, 1, 2, 3, 2, 3]`.  The
sixth insert returns key `3` — an occupied slot, whose value `13` is
silently overwritten — instead of the still-free slot `0` that LIFO reuse
demands; the repository's own test `does_not_forget_list` in `src/slab.rs`
asserts that this insert must not return `3`. -/
theorem claim_C2_free_list_forgotten :
    Valid [Op.insert (T := Nat) 10, Op.insert 11, Op.insert 12, Op.insert 13,
      Op.remove 0, Op.remove 2, Op.insert 14, Op.insert 15] = true ∧
    (runOps [Op.insert (T := Nat) 10, Op.insert 11, Op.insert 12, Op.insert 13,
      Op.remove 0, Op.remove 2, Op.insert 14, Op.insert 15]).keys
      = [0, 1, 2, 3, 2, 3] := by decide

/-- Claim C3: after any sequence of operations that respects the stated
preconditions, `len()` equals the number of inserts minus the number of
removes performed. -/
theorem claim_C3_len_accounting (ops : List (Op T)) (h : Valid ops = true) :
    (runOps ops).slab.len = countIns ops - countRem ops := by
  have h' : validFrom (initState (T := T)) ops = true := h
  have heq := len_steps goodRun_initState h'
  have h0 : (initState (T := T)).slab.len = 0 := rfl
  have hr : (runOps ops).slab.len = (steps (initState (T := T)) ops).slab.len := rfl
  omega

theorem claim_C3_len_accounting_witness :
    Valid [Op.insert 5, Op.insert 6, Op.remove 0, Op.insert 7] = true ∧
    (runOps [Op.insert 5, Op.insert 6, Op.remove 0, Op.insert 7]).slab.len
      = countIns [Op.insert 5, Op.insert 6, Op.remove 0, Op.insert 7]
        - countRem [Op.insert 5, Op.insert 6, Op.remove 0, Op.insert 7] :=
  ⟨by decide,
    claim_C3_len_accounting [Op.insert 5, Op.insert 6, Op.remove 0, Op.insert 7]
      (by decide)⟩

/-- Claim C4 counterexample: `insert; insert; remove 0` respects every
stated precondition and reaches the state `len = 1`, `next = 0`, in which
`len.as_index() ≤ next.as_index()` is false. -/
theorem claim_C4_counterexample :
    Valid [Op.insert (T := Nat) 1, Op.insert 2, Op.remove 0] = true ∧
    ¬((runOps [Op.insert (T := Nat) 1, Op.insert 2, Op.remove 0]).slab.len ≤
      (runOps [Op.insert (T := Nat) 1, Op.insert 2, Op.remove 0]).slab.next) := by
  decide

/-- Claim C4, amended: in every state reachable from `new()` by operations
respecting the stated preconditions, `next.as_index() ≤ storage.length()`
holds; the other half of the claimed invariant, `len ≤ next`, is false
(see the counterexample). -/
theorem claim_C4_next_le_capacity (ops : List (Op T)) (h : Valid ops = true) :
    (runOps ops).slab.next ≤ (runOps ops).slab.slots.length := by
  have h' : validFrom (initState (T := T)) ops = true := h
  exact (goodRun_steps goodRun_initState h').1

theorem claim_C4_next_le_capacity_witness :
    Valid [Op.insert 1, Op.insert 2, Op.remove 0] = true ∧
    (runOps [Op.insert 1, Op.insert 2, Op.remove 0]).slab.next ≤
      (runOps [Op.insert 1, Op.insert 2, Op.remove 0]).slab.slots.length :=
  ⟨by decide,
    claim_C4_next_le_capacity [Op.insert 1, Op.insert 2, Op.remove 0] (by decide)⟩

/-- Claim C5: with no removes ever performed, the n-th insert (1-indexed)
returns the key `ZERO` incremented `n - 1` times: a pure run of inserts
from a fresh slab issues the keys `0, 1, 2, ...` in order; in particular
the first insert returns `ZERO`. -/
theorem claim_C5_monotonic_keys (vals : List T) :
    (runOps (vals.map Op.insert)).keys = List.range vals.length := by
  have := steps_inserts_keys vals (initState (T := T)) rfl
  rw [List.range_eq_range']
  simpa [initState, runOps] using this

/-- Claim C6: an insert that hits the capacity boundary (`next` equal to the
storage length, forcing a growth event) preserves the value retrievable at
every previously issued key: slot `j` of the old store is slot `j` of the
new store. -/
theorem claim_C6_growth_preserves (s : Slab T) (v : T) (j : Nat) (w : T)
    (hgrow : s.next = s.slots.length) (hj : s.get j = some w) :
    (s.insert v).2.get j = some w := by
  have hlt : j < s.slots.length := by
    by_contra hge
    unfold Slab.get at hj
    rw [getD_of_length_le _ _ _ (Nat.le_of_not_lt hge)] at hj
    cases hj
  have hne : j ≠ s.next := by rw [hgrow]; exact Nat.ne_of_lt hlt
  rw [insert_get_ne s v j hne hlt]
  exact hj

theorem claim_C6_growth_preserves_witness :
    ((runOps [Op.insert 1, Op.insert 2, Op.insert 3, Op.insert 4]).slab.next
      = (runOps [Op.insert 1, Op.insert 2, Op.insert 3, Op.insert 4]).slab.slots.length) ∧
    ((runOps [Op.insert 1, Op.insert 2, Op.insert 3, Op.insert 4]).slab.get 0 = some 1) ∧
    (((runOps [Op.insert 1, Op.insert 2, Op.insert 3, Op.insert 4]).slab.insert 99).2.get 0
      = some 1) :=
  ⟨by decide, by decide,
    claim_C6_growth_preserves _ 99 0 1 (by decide) (by decide)⟩

/-- Claim C7: `remove k` does not change the value retrievable at any other
key `j ≠ k`: it only rewrites slot `k`, `next`, and `len`. -/
theorem claim_C7_remove_noninterference (s : Slab T) (k j : Nat) (w : T)
    (hne : j ≠ k) (hj : s.get j = some w) :
    (s.remove k).2.get j = some w := by
  rw [remove_get_ne s k j hne]
  exact hj

theorem claim_C7_remove_noninterference_witness :
    ((runOps [Op.insert 1, Op.insert 2, Op.insert 3]).slab.get 2 = some 3) ∧
    (((runOps [Op.insert 1, Op.insert 2, Op.insert 3]).slab.remove 1).2.get 2 = some 3) :=
  ⟨by decide, claim_C7_remove_noninterference _ 1 2 3 (by decide) (by decide)⟩

/-- Claim C8: the backing store grows exactly when an insert finds `next`
equal to the current capacity, and a growth event takes the capacity from
`c` to `4` when `c = 0` and to `2 * c` otherwise. -/
theorem claim_C8_growth_policy (s : Slab T) (v : T) :
    (s.insert v).2.slots.length =
      if s.next = s.slots.length then
        (if s.slots.length = 0 then 4 else 2 * s.slots.length)
      else s.slots.length := by
  rw [insert_length]
  unfold Slab.grow
  by_cases hb : s.next = s.slots.length
  · rw [if_pos hb, if_pos hb]
    simp only [Slab.extend, List.length_append, List.length_replicate]
    by_cases h0 : s.slots.length = 0
    · rw [if_pos h0, if_pos h0, h0]
    · rw [if_neg h0, if_neg h0]
      omega
  · rw [if_neg hb, if_neg hb]

end LibSlab

namespace SlabRs

/-- Claim C9: for every slab state, the `next()` accessor of `src/slab.rs`
returns exactly the key that the next `insert` call would return. -/
theorem claim_C9_next_accessor (s : Slab T) (v : T) : (s.insert v).1 = s.next := rfl

end SlabRs

theorem slotToRs_readNextField {T : Type} (sl : LibSlab.Slot T) :
    SlabRs.readNextField (slotToRs sl) = LibSlab.readNextField sl := by
  cases sl <;> rfl

theorem slabToRs_getD {T : Type} (s : LibSlab.Slab T) (j : Nat) :
    (slabToRs s).slots.getD j SlabRs.Slot.uninit
      = slotToRs (s.slots.getD j LibSlab.Slot.uninit) :=
  getD_map slotToRs s.slots j LibSlab.Slot.uninit

theorem slabToRs_extend {T : Type} (s : LibSlab.Slab T) :
    slabToRs s.extend = (slabToRs s).extend := by
  unfold slabToRs LibSlab.Slab.extend SlabRs.Slab.extend
  simp only [List.map_append, List.map_replicate, List.length_map]
  rfl

theorem slabToRs_grow {T : Type} (s : LibSlab.Slab T) :
    slabToRs s.grow = (slabToRs s).grow := by
  unfold LibSlab.Slab.grow SlabRs.Slab.grow
  have hl : (slabToRs s).slots.length = s.slots.length := List.length_map _ _
  have hn : (slabToRs s).next = s.next := rfl
  rw [hl, hn]
  split
  · exact slabToRs_extend s
  · rfl

theorem slabToRs_insert {T : Type} (s : LibSlab.Slab T) (v : T) :
    ((slabToRs s).insert v).1 = (s.insert v).1 ∧
    ((slabToRs s).insert v).2 = slabToRs (s.insert v).2 := by
  constructor
  · rfl
  · show SlabRs.Slab.mk
        ((slabToRs s).grow.slots.set (slabToRs s).next (SlabRs.Slot.val v))
        (if (slabToRs s).grow.next = (slabToRs s).grow.len
          then (slabToRs s).grow.next + 1
          else SlabRs.readNextField
            ((slabToRs s).grow.slots.getD (slabToRs s).next SlabRs.Slot.uninit))
        ((slabToRs s).grow.len + 1)
      = slabToRs (LibSlab.Slab.mk
        (s.grow.slots.set s.next (LibSlab.Slot.val v))
        (if s.grow.next = s.grow.len then s.grow.next + 1
          else LibSlab.readNextField (s.grow.slots.getD s.next LibSlab.Slot.uninit))
        (s.grow.len + 1))
    rw [← slabToRs_grow]
    have hn : (slabToRs s).next = s.next := rfl
    rw [hn]
    unfold slabToRs
    dsimp only
    rw [List.map_set, getD_map_slot, slotToRs_readNextField]
    rfl

theorem slabToRs_remove {T : Type} (s : LibSlab.Slab T) (k : Nat) :
    ((slabToRs s).remove k).1 = (s.remove k).1 ∧
    ((slabToRs s).remove k).2 = slabToRs (s.remove k).2 := by
  constructor
  · show (match (slabToRs s).slots.getD k SlabRs.Slot.uninit with
      | SlabRs.Slot.val w => some w
      | _ => none)
      = (match s.slots.getD k LibSlab.Slot.uninit with
      | LibSlab.Slot.val w => some w
      | _ => none)
    rw [slabToRs_getD]
    cases s.slots.getD k LibSlab.Slot.uninit <;> rfl
  · show SlabRs.Slab.mk
        ((slabToRs s).slots.set k (SlabRs.Slot.next (slabToRs s).next))
        k ((slabToRs s).len - 1)
      = slabToRs (LibSlab.Slab.mk
        (s.slots.set k (LibSlab.Slot.next s.next)) k (s.len - 1))
    unfold slabToRs
    dsimp only
    rw [List.map_set]
    rfl

theorem slabToRs_get {T : Type} (s : LibSlab.Slab T) (k : Nat) :
    (slabToRs s).get k = s.get k := by
  unfold SlabRs.Slab.get LibSlab.Slab.get
  rw [slabToRs_getD]
  cases s.slots.getD k LibSlab.Slot.uninit <;> rfl

theorem slabToRs_setVal {T : Type} (s : LibSlab.Slab T) (k : Nat) (v : T) :
    (slabToRs s).setVal k v = slabToRs (s.setVal k v) := by
  unfold SlabRs.Slab.setVal LibSlab.Slab.setVal slabToRs
  simp only [List.map_set]
  rfl

theorem runQ_toRs {T : Type} (ops : List (OpQ T)) (s : LibSlab.Slab T) :
    SlabRs.runQ (slabToRs s) ops = LibSlab.runQ s ops := by
  induction ops generalizing s with
  | nil => rfl
  | cons op rest ih =>
    cases op with
    | insert v =>
      obtain ⟨h1, h2⟩ := slabToRs_insert s v
      show Out.key ((slabToRs s).insert v).1
          :: SlabRs.runQ ((slabToRs s).insert v).2 rest = _
      rw [h1, h2, ih]
      rfl
    | remove k =>
      obtain ⟨h1, h2⟩ := slabToRs_remove s k
      show Out.extracted ((slabToRs s).remove k).1
          :: SlabRs.runQ ((slabToRs s).remove k).2 rest = _
      rw [h1, h2, ih]
      rfl
    | get k =>
      show Out.extracted ((slabToRs s).get k) :: SlabRs.runQ (slabToRs s) rest = _
      rw [slabToRs_get, ih]
      rfl
    | set k v =>
      show Out.done :: SlabRs.runQ ((slabToRs s).setVal k v) rest = _
      rw [slabToRs_setVal, ih]
      rfl
    | len =>
      show Out.count (slabToRs s).len :: SlabRs.runQ (slabToRs s) rest = _
      rw [ih]
      rfl

/-- Claim C10: the two `Slab` implementations (`src/lib.rs` and
`src/slab.rs`) are observationally equivalent: starting from `new()`, every
call sequence of `insert`, `remove`, `get`, `get_mut`, and `len` observes
identical keys, values, and lengths in both. -/
theorem claim_C10_observational_equivalence {T : Type} (ops : List (OpQ T)) :
    LibSlab.runQ LibSlab.Slab.new ops = SlabRs.runQ SlabRs.Slab.new ops := by
  have : slabToRs (LibSlab.Slab.new (T := T)) = SlabRs.Slab.new := rfl
  rw [← this, runQ_toRs]
